import Mathlib

/-!
Verification of the it-book repository against its specification.

The repository is a FastAPI content site (src/app.py, src/models.py, src/db.py,
src/upload_book.py) whose specification centres on a real-time room-chat
subsystem (Room Registry, Broadcaster, Message Store).  The persisted
ChatMessage model lives in src/models.py; the registry/broadcaster/store code
itself is not part of the source snapshot, so those operations are modelled
from the spec (each such definition is marked in its doc comment).  The
helpers of src/app.py (answer checking, PDF-name safety, signed admin cookie)
are embedded directly from the source.

Strings are modelled as lists of code points (List Char), matching the
specification's code-point counting.  Python str.strip / str.split / str.lower
are modelled on the ASCII whitespace and letter ranges, which is all the
repository's data uses.
-/

namespace ItBook

/-- Python whitespace predicate: the ASCII whitespace characters recognised by
str.strip and str.split (space, tab, newline, carriage return, vertical tab,
form feed). -/
def pyIsSpace (c : Char) : Bool :=
  c = ' ' || c = '\t' || c = '\n' || c = '\r' || c = '\x0b' || c = '\x0c'

/-- Python str.strip with no argument: remove leading and trailing whitespace. -/
def pyStrip (s : List Char) : List Char :=
  ((s.dropWhile pyIsSpace).reverse.dropWhile pyIsSpace).reverse

/-- Python str.lower, restricted to ASCII letters. -/
def pyLower (s : List Char) : List Char := s.map Char.toLower

/-- Python str.split with no separator: the maximal runs of non-whitespace
characters, in order; surrounding and repeated whitespace produce no empty
pieces. -/
def pySplit (s : List Char) : List (List Char) :=
  match s with
  | [] => []
  | c :: cs =>
    if pyIsSpace c then pySplit cs
    else (c :: cs.takeWhile (fun d => !pyIsSpace d)) ::
      pySplit (cs.dropWhile (fun d => !pyIsSpace d))
termination_by s.length
decreasing_by
  · simp only [List.length_cons]
    exact Nat.lt_succ_of_le (Nat.le_refl _)
  · simp only [List.length_cons]
    exact Nat.lt_succ_of_le (List.dropWhile_sublist _).length_le

/-- Python " ".join. -/
def joinSpace (ws : List (List Char)) : List Char := List.intercalate [' '] ws

/-- Embeds the inner function norm of check_exercise (src/app.py line 212):
" ".join(s.lower().split()).  It lowercases, collapses every whitespace run to
a single space and removes surrounding whitespace. -/
def norm (s : List Char) : List Char := joinSpace (pySplit (pyLower s))

/-- Fields of the Exercise record used by check_exercise.  The models module in
the snapshot does not declare Exercise; the fields are taken from their uses in
src/app.py (correct_answer at lines 209 and 219, explanation_md at line 220). -/
structure Exercise where
  correct_answer : List Char
  explanation_md : List Char
deriving DecidableEq, Repr

/-- The JSON body returned by check_exercise, restricted to the two fields the
claims are about; explanation_html is produced by the external markdown
renderer and is not modelled. -/
structure CheckResponse where
  ok : Bool
  correct : List Char
deriving DecidableEq, Repr

/-- Embeds check_exercise (src/app.py lines 202-221) for an existing exercise:
strip both answers, compare them under norm, and echo the stored
correct_answer verbatim. -/
def check_exercise (ex : Exercise) (answer : List Char) : CheckResponse :=
  let user := pyStrip answer
  let correct := pyStrip ex.correct_answer
  { ok := norm user == norm correct, correct := ex.correct_answer }

/-- Python substring containment: x in s for strings. -/
def strContains (s pat : List Char) : Bool := decide (pat <:+: s)

/-- Embeds safe_name (src/app.py lines 106-107):
all(x not in name for x in ["..", "/", "\\"]). -/
def safe_name (name : List Char) : Bool :=
  !(strContains name ['.', '.']) && !(strContains name ['/']) &&
    !(strContains name ['\\'])

/-- Embeds file_exists_approved (src/app.py lines 235-238).  The filesystem
test (PDF_APPROVED / filename).exists() is abstracted as the function
fsExists. -/
def file_exists_approved (fsExists : List Char → Bool) (filename : List Char) : Bool :=
  if ¬ safe_name filename then false else fsExists filename

/-- The two observable outcomes of the GET /book/{filename} route. -/
inductive BookViewerResponse where
  | notFound
  | page (filename : List Char)
deriving DecidableEq, Repr

/-- Embeds book_viewer (src/app.py lines 257-270): 404 when
file_exists_approved fails, otherwise the viewer page for that filename. -/
def book_viewer (fsExists : List Char → Bool) (filename : List Char) : BookViewerResponse :=
  if ¬ file_exists_approved fsExists filename then BookViewerResponse.notFound
  else BookViewerResponse.page filename

/-- Embeds _sign (src/app.py lines 77-79).  The call
hmac.new(SECRET_KEY, value, sha256).hexdigest() is abstracted as the function
mac; theorems assume only what hexdigest guarantees, namely that its output
contains no dot. -/
def _sign (mac : List Char → List Char) (value : List Char) : List Char :=
  value ++ '.' :: mac value

/-- Python signed.rsplit(".", 1) for a string known to contain a dot: the part
before the last dot and the part after it. -/
def rsplit_dot (s : List Char) : List Char × List Char :=
  (((s.reverse.dropWhile (fun c => c != '.')).drop 1).reverse,
   (s.reverse.takeWhile (fun c => c != '.')).reverse)

/-- Embeds _verify (src/app.py lines 81-86): reject when the cookie is empty
or has no dot, otherwise split at the last dot and require the signature to
equal the recomputed mac and the value to equal "admin".
hmac.compare_digest on hex digests is equality. -/
def _verify (mac : List Char → List Char) (signed : List Char) : Bool :=
  if signed = [] ∨ '.' ∉ signed then false
  else
    let vs := rsplit_dot signed
    (vs.2 == mac vs.1) && (vs.1 == "admin".toList)

/-- Timezone annotation of a Python datetime: naive, or a fixed UTC offset as
produced by datetime.timezone. -/
inductive TZ where
  | naive
  | fixedOffset (minutes : Int)
deriving DecidableEq, Repr

/-- Python timezone.utc, the fixed offset zero. -/
def TZ.utc : TZ := TZ.fixedOffset 0

/-- A Python datetime reduced to what the claims need: an instant and its
timezone annotation. -/
structure Timestamp where
  time : Nat
  tz : TZ
deriving DecidableEq, Repr

/-- Models datetime.now(timezone.utc), the default_factory of
ChatMessage.created_at (src/models.py lines 35-38), with the current instant
supplied by the store's clock. -/
def datetime_now_utc (clock : Nat) : Timestamp := ⟨clock, TZ.utc⟩

/-- Embeds the ChatMessage model (src/models.py lines 22-38): optional
store-assigned id, room key defaulting to "main", author name, text body and
creation timestamp. -/
structure ChatMessage where
  id : Option Nat := none
  room : List Char := "main".toList
  name : List Char
  text : List Char
  created_at : Timestamp
deriving DecidableEq, Repr

/-- Room keys are strings. -/
abbrev RoomKey := List Char

/-- Opaque connection handles. -/
abbrev Conn := Nat

/-- Modelled from the spec: the Room Registry, an in-memory mapping from room
key to the live set of subscriber connections (spec section 4.1).  The
registry implementation is not part of the source snapshot. -/
structure Registry where
  rooms : RoomKey → Option (List Conn)

/-- The registry with no rooms. -/
def Registry.empty : Registry := ⟨fun _ => none⟩

/-- Replace (or remove, with none) the entry of one room. -/
def Registry.set (reg : Registry) (room : RoomKey) (v : Option (List Conn)) : Registry :=
  ⟨fun r => if r = room then v else reg.rooms r⟩

/-- Modelled from the spec: register(room, conn) adds conn to the subscriber
set for room, creating the room entry if absent (spec section 4.1). -/
def Registry.register (reg : Registry) (room : RoomKey) (conn : Conn) : Registry :=
  match reg.rooms room with
  | none => reg.set room (some [conn])
  | some cs => reg.set room (some (if conn ∈ cs then cs else conn :: cs))

/-- Modelled from the spec: unregister(room, conn) removes conn from room's
set if present; if the set becomes empty the room entry is removed entirely;
unregistering a non-member or unknown room is a no-op (spec section 4.1). -/
def Registry.unregister (reg : Registry) (room : RoomKey) (conn : Conn) : Registry :=
  match reg.rooms room with
  | none => reg
  | some cs =>
    if conn ∈ cs then
      let cs' := cs.filter (fun c => c != conn)
      if cs' = [] then reg.set room none else reg.set room (some cs')
    else reg

/-- Modelled from the spec: snapshot(room) returns the current subscriber set
of room, the empty set for an unknown room (spec section 4.1). -/
def Registry.snapshot (reg : Registry) (room : RoomKey) : List Conn :=
  (reg.rooms room).getD []

/-- Whether conn is currently a subscriber of room. -/
def Registry.isMember (reg : Registry) (room : RoomKey) (conn : Conn) : Bool :=
  match reg.rooms room with
  | none => false
  | some cs => decide (conn ∈ cs)

/-- Registry states reachable from the empty registry by register and
unregister operations. -/
inductive Reachable : Registry → Prop where
  | empty : Reachable Registry.empty
  | register (reg : Registry) (room : RoomKey) (conn : Conn) :
      Reachable reg → Reachable (reg.register room conn)
  | unregister (reg : Registry) (room : RoomKey) (conn : Conn) :
      Reachable reg → Reachable (reg.unregister room conn)

/-- Modelled from the spec: the Message Store, a durable append-only log of
chat messages with an id counter and a clock for store-assigned timestamps
(spec section 4.3).  The store implementation is not part of the source
snapshot. -/
structure MessageStore where
  messages : List ChatMessage
  nextId : Nat
  clock : Nat
deriving DecidableEq, Repr

/-- The store holding no messages. -/
def MessageStore.empty : MessageStore := ⟨[], 0, 0⟩

/-- Modelled from the spec: append(room, name, text) assigns identifier and
timestamp, persists the record and returns it including the server-assigned
fields (spec section 4.3).  The timestamp comes from the store's clock via
datetime_now_utc, never from the caller. -/
def MessageStore.append (st : MessageStore) (room name text : List Char) :
    MessageStore × ChatMessage :=
  let msg : ChatMessage :=
    { id := some st.nextId, room := room, name := name, text := text,
      created_at := datetime_now_utc st.clock }
  ({ messages := st.messages ++ [msg], nextId := st.nextId + 1,
     clock := st.clock + 1 }, msg)

/-- Modelled from the spec: recent(room, limit) returns up to limit most
recent messages of room in ascending chronological order, oldest first (spec
section 4.3). -/
def MessageStore.recent (st : MessageStore) (room : List Char) (limit : Nat) :
    List ChatMessage :=
  ((st.messages.filter (fun m => m.room == room)).reverse.take limit).reverse

/-- Modelled from the spec: step 2 of the Broadcaster's per-message algorithm
(spec section 4.2): trim surrounding whitespace, truncate the name to 32 and
the text to 800 code points, and discard the frame if either is empty after
trimming. -/
def validate_frame (name text : List Char) : Option (List Char × List Char) :=
  let n := (pyStrip name).take 32
  let t := (pyStrip text).take 800
  if n = [] ∨ t = [] then none else some (n, t)

/-- Result of handling one inbound frame: the updated store and the list of
(connection, payload) sends of the fan-out pass. -/
structure StepResult where
  store : MessageStore
  sends : List (Conn × ChatMessage)

/-- Modelled from the spec: steps 2-5 of the Broadcaster's per-message
algorithm (spec section 4.2): validate the frame; if it is dropped, neither
persist nor broadcast; otherwise persist via the Message Store and send the
stored record to every connection in the registry snapshot of the room. -/
def receiveFrame (reg : Registry) (st : MessageStore) (room : RoomKey)
    (name text : List Char) : StepResult :=
  match validate_frame name text with
  | none => ⟨st, []⟩
  | some (n, t) =>
    let r := st.append room n t
    ⟨r.1, (reg.snapshot room).map (fun c => (c, r.2))⟩

/-- Modelled from the spec: room selection at connection-establishment time,
with the default room key "main" when the parameter is unspecified (spec
section 6); matches the column default of ChatMessage.room
(src/models.py line 26). -/
def resolve_room (param : Option RoomKey) : RoomKey := param.getD ("main".toList)

/-- A store whose log is in chronological order: creation times are
non-decreasing along the list. -/
def Chronological (st : MessageStore) : Prop :=
  st.messages.Pairwise (fun a b => a.created_at.time ≤ b.created_at.time)

/-! Helper lemmas on takeWhile and dropWhile. -/

theorem takeWhile_append_of_all {α : Type} (p : α → Bool) (l₁ l₂ : List α)
    (h : ∀ x ∈ l₁, p x = true) :
    (l₁ ++ l₂).takeWhile p = l₁ ++ l₂.takeWhile p := by
  induction l₁ with
  | nil => simp
  | cons a as ih =>
    have ha : p a = true := h a (by simp)
    simp only [List.cons_append, List.takeWhile_cons, ha, if_true]
    rw [ih (fun x hx => h x (by simp [hx]))]

theorem dropWhile_append_of_all {α : Type} (p : α → Bool) (l₁ l₂ : List α)
    (h : ∀ x ∈ l₁, p x = true) :
    (l₁ ++ l₂).dropWhile p = l₂.dropWhile p := by
  induction l₁ with
  | nil => simp
  | cons a as ih =>
    have ha : p a = true := h a (by simp)
    simp only [List.cons_append, List.dropWhile_cons, ha, if_true]
    exact ih (fun x hx => h x (by simp [hx]))

theorem takeWhile_append_of_exists {α : Type} (p : α → Bool) (l₁ l₂ : List α)
    (h : ∃ x ∈ l₁, p x = false) :
    (l₁ ++ l₂).takeWhile p = l₁.takeWhile p := by
  induction l₁ with
  | nil =>
    obtain ⟨x, hx, _⟩ := h
    exact absurd hx (List.not_mem_nil x)
  | cons a as ih =>
    by_cases ha : p a = true
    · simp only [List.cons_append, List.takeWhile_cons, ha, if_true]
      obtain ⟨x, hx, hpx⟩ := h
      have hxas : x ∈ as := by
        rcases List.mem_cons.mp hx with h1 | h1
        · rw [h1] at hpx; rw [hpx] at ha; exact absurd ha (by simp)
        · exact h1
      rw [ih ⟨x, hxas, hpx⟩]
    · have ha' : p a = false := by
        cases hpa : p a
        · rfl
        · exact absurd hpa ha
      simp [List.takeWhile_cons, ha']

theorem dropWhile_append_of_exists {α : Type} (p : α → Bool) (l₁ l₂ : List α)
    (h : ∃ x ∈ l₁, p x = false) :
    (l₁ ++ l₂).dropWhile p = l₁.dropWhile p ++ l₂ := by
  induction l₁ with
  | nil =>
    obtain ⟨x, hx, _⟩ := h
    exact absurd hx (List.not_mem_nil x)
  | cons a as ih =>
    by_cases ha : p a = true
    · simp only [List.cons_append, List.dropWhile_cons, ha, if_true]
      obtain ⟨x, hx, hpx⟩ := h
      have hxas : x ∈ as := by
        rcases List.mem_cons.mp hx with h1 | h1
        · rw [h1] at hpx; rw [hpx] at ha; exact absurd ha (by simp)
        · exact h1
      exact ih ⟨x, hxas, hpx⟩
    · have ha' : p a = false := by
        cases hpa : p a
        · rfl
        · exact absurd hpa ha
      simp [List.dropWhile_cons, ha']

theorem dropWhile_eq_cons_head_false {α : Type} (p : α → Bool) :
    ∀ (l : List α) (c : α) (cs : List α), l.dropWhile p = c :: cs → p c = false := by
  intro l
  induction l with
  | nil => intro c cs h; exact absurd h (by simp)
  | cons a as ih =>
    intro c cs h
    by_cases ha : p a = true
    · rw [List.dropWhile_cons, if_pos ha] at h
      exact ih c cs h
    · have ha' : p a = false := by
        cases hpa : p a
        · rfl
        · exact absurd hpa ha
      rw [List.dropWhile_cons, if_neg (by simp [ha'])] at h
      cases h
      exact ha'

theorem dropWhile_eq_nil_all {α : Type} (p : α → Bool) :
    ∀ (l : List α), l.dropWhile p = [] → ∀ x ∈ l, p x = true := by
  intro l
  induction l with
  | nil => intro _ x hx; exact absurd hx (List.not_mem_nil x)
  | cons a as ih =>
    intro h x hx
    by_cases ha : p a = true
    · rw [List.dropWhile_cons, if_pos ha] at h
      rcases List.mem_cons.mp hx with h1 | h1
      · rw [h1]; exact ha
      · exact ih h x h1
    · rw [List.dropWhile_cons, if_neg ha] at h
      exact absurd h (by simp)

/-! Helper lemmas about pyStrip. -/

theorem dropWhile_eq_pyStrip_append (s : List Char) :
    ∃ q, (∀ c ∈ q, pyIsSpace c = true) ∧
      s.dropWhile pyIsSpace = pyStrip s ++ q := by
  refine ⟨((s.dropWhile pyIsSpace).reverse.takeWhile pyIsSpace).reverse, ?_, ?_⟩
  · intro c hc
    exact List.mem_takeWhile_imp (List.mem_reverse.mp hc)
  · have hsplit :
        (s.dropWhile pyIsSpace).reverse.takeWhile pyIsSpace ++
          (s.dropWhile pyIsSpace).reverse.dropWhile pyIsSpace =
            (s.dropWhile pyIsSpace).reverse :=
      List.takeWhile_append_dropWhile pyIsSpace (s.dropWhile pyIsSpace).reverse
    have := congrArg List.reverse hsplit
    rw [List.reverse_append, List.reverse_reverse] at this
    exact this.symm

theorem pyStrip_decomp (s : List Char) :
    ∃ p q, s = p ++ pyStrip s ++ q ∧ (∀ c ∈ p, pyIsSpace c = true) ∧
      (∀ c ∈ q, pyIsSpace c = true) := by
  obtain ⟨q, hq, hdrop⟩ := dropWhile_eq_pyStrip_append s
  refine ⟨s.takeWhile pyIsSpace, q, ?_, ?_, hq⟩
  · conv_lhs => rw [(List.takeWhile_append_dropWhile (p := pyIsSpace) (l := s)).symm]
    rw [hdrop, List.append_assoc]
  · intro c hc
    exact List.mem_takeWhile_imp hc

theorem pyStrip_head_not_space (s : List Char) (c : Char) (cs : List Char)
    (h : pyStrip s = c :: cs) : pyIsSpace c = false := by
  obtain ⟨q, _, hdrop⟩ := dropWhile_eq_pyStrip_append s
  rw [h] at hdrop
  exact dropWhile_eq_cons_head_false pyIsSpace s c (cs ++ q) (by simpa using hdrop)

theorem pyStrip_eq_nil_all (s : List Char) (h : pyStrip s = []) :
    ∀ c ∈ s, pyIsSpace c = true := by
  obtain ⟨p, q, hs, hp, hq⟩ := pyStrip_decomp s
  rw [h] at hs
  intro c hc
  rw [hs] at hc
  simp only [List.append_nil, List.mem_append] at hc
  rcases hc with h1 | h1
  · exact hp c h1
  · exact hq c h1

theorem pyStrip_take_ne_nil (s : List Char) (k : Nat)
    (h : (pyStrip s).take k ≠ []) : pyStrip ((pyStrip s).take k) ≠ [] := by
  cases e : pyStrip s with
  | nil => rw [e] at h; simp at h
  | cons c cs =>
    have hc : pyIsSpace c = false := pyStrip_head_not_space s c cs e
    rw [e] at h
    cases k with
    | zero => simp at h
    | succ k' =>
      rw [List.take_succ_cons]
      intro hnil
      have := pyStrip_eq_nil_all _ hnil c (by simp)
      rw [this] at hc
      exact absurd hc (by simp)

/-! Helper lemmas about pySplit, pyLower and norm. -/

theorem pySplit_nil : pySplit [] = [] := by rw [pySplit]

theorem pySplit_cons_space (c : Char) (cs : List Char) (h : pyIsSpace c = true) :
    pySplit (c :: cs) = pySplit cs := by
  rw [pySplit]
  simp [h]

theorem pySplit_cons_word (c : Char) (cs : List Char) (h : pyIsSpace c = false) :
    pySplit (c :: cs) =
      (c :: cs.takeWhile (fun d => !pyIsSpace d)) ::
        pySplit (cs.dropWhile (fun d => !pyIsSpace d)) := by
  rw [pySplit]
  simp [h]

theorem pySplit_all_space (t : List Char) (h : ∀ c ∈ t, pyIsSpace c = true) :
    pySplit t = [] := by
  induction t with
  | nil => exact pySplit_nil
  | cons c cs ih =>
    rw [pySplit_cons_space c cs (h c (by simp))]
    exact ih (fun x hx => h x (by simp [hx]))

theorem pySplit_space_append (p l : List Char) (hp : ∀ c ∈ p, pyIsSpace c = true) :
    pySplit (p ++ l) = pySplit l := by
  induction p with
  | nil => simp
  | cons c cs ih =>
    rw [List.cons_append, pySplit_cons_space c (cs ++ l) (hp c (by simp))]
    exact ih (fun x hx => hp x (by simp [hx]))

theorem takeWhile_not_space_of_all_space (t : List Char)
    (ht : ∀ c ∈ t, pyIsSpace c = true) :
    t.takeWhile (fun d => !pyIsSpace d) = [] := by
  cases t with
  | nil => rfl
  | cons c cs => simp [List.takeWhile_cons, ht c (by simp)]

theorem dropWhile_not_space_of_all_space (t : List Char)
    (ht : ∀ c ∈ t, pyIsSpace c = true) :
    t.dropWhile (fun d => !pyIsSpace d) = t := by
  cases t with
  | nil => rfl
  | cons c cs => simp [List.dropWhile_cons, ht c (by simp)]

theorem pySplit_append_space (l t : List Char) (ht : ∀ c ∈ t, pyIsSpace c = true) :
    pySplit (l ++ t) = pySplit l := by
  have key : ∀ (n : Nat) (l : List Char), l.length ≤ n →
      pySplit (l ++ t) = pySplit l := by
    intro n
    induction n with
    | zero =>
      intro l hl
      have : l = [] := List.length_eq_zero.mp (Nat.le_zero.mp hl)
      rw [this, List.nil_append, pySplit_nil]
      exact pySplit_all_space t ht
    | succ n ih =>
      intro l hl
      cases l with
      | nil =>
        rw [List.nil_append, pySplit_nil]
        exact pySplit_all_space t ht
      | cons c cs =>
        have hcs : cs.length ≤ n := by simpa using hl
        by_cases hc : pyIsSpace c = true
        · rw [List.cons_append, pySplit_cons_space c (cs ++ t) hc,
            pySplit_cons_space c cs hc]
          exact ih cs hcs
        · have hc' : pyIsSpace c = false := by
            cases hpc : pyIsSpace c
            · rfl
            · exact absurd hpc hc
          rw [List.cons_append, pySplit_cons_word c (cs ++ t) hc',
            pySplit_cons_word c cs hc']
          by_cases hall : ∀ x ∈ cs, (fun d => !pyIsSpace d) x = true
          · rw [takeWhile_append_of_all _ cs t hall,
              takeWhile_not_space_of_all_space t ht, List.append_nil,
              dropWhile_append_of_all _ cs t hall,
              dropWhile_not_space_of_all_space t ht, pySplit_all_space t ht]
            have h1 : cs.takeWhile (fun d => !pyIsSpace d) = cs := by
              have := takeWhile_append_of_all (fun d => !pyIsSpace d) cs [] hall
              simpa using this
            have h2 : cs.dropWhile (fun d => !pyIsSpace d) = [] := by
              have := dropWhile_append_of_all (fun d => !pyIsSpace d) cs [] hall
              simpa using this
            rw [h1, h2, pySplit_nil]
          · have hex : ∃ x ∈ cs, (fun d => !pyIsSpace d) x = false := by
              push_neg at hall
              obtain ⟨x, hx, hpx⟩ := hall
              exact ⟨x, hx, by simpa using hpx⟩
            rw [takeWhile_append_of_exists _ cs t hex,
              dropWhile_append_of_exists _ cs t hex]
            have hlen : (cs.dropWhile (fun d => !pyIsSpace d)).length ≤ n :=
              Nat.le_trans (List.dropWhile_sublist _).length_le hcs
            rw [ih (cs.dropWhile (fun d => !pyIsSpace d)) hlen]
  exact key l.length l (Nat.le_refl _)

theorem toLower_space (c : Char) (h : pyIsSpace c = true) : Char.toLower c = c := by
  simp only [pyIsSpace, Bool.or_eq_true, decide_eq_true_eq] at h
  rcases h with ((((rfl | rfl) | rfl) | rfl) | rfl) | rfl <;> decide

theorem pyLower_of_all_space (l : List Char) (h : ∀ c ∈ l, pyIsSpace c = true) :
    pyLower l = l := by
  induction l with
  | nil => rfl
  | cons c cs ih =>
    simp only [pyLower, List.map_cons]
    rw [toLower_space c (h c (by simp))]
    have := ih (fun x hx => h x (by simp [hx]))
    simp only [pyLower] at this
    rw [this]

theorem norm_pyStrip (s : List Char) : norm (pyStrip s) = norm s := by
  obtain ⟨p, q, hs, hp, hq⟩ := pyStrip_decomp s
  conv_rhs => rw [hs]
  simp only [norm, pyLower, List.map_append]
  have hpl : List.map Char.toLower p = p := by
    have := pyLower_of_all_space p hp
    simpa [pyLower] using this
  have hql : List.map Char.toLower q = q := by
    have := pyLower_of_all_space q hq
    simpa [pyLower] using this
  rw [hpl, hql, List.append_assoc,
    pySplit_space_append p (List.map Char.toLower (pyStrip s) ++ q) hp,
    pySplit_append_space (List.map Char.toLower (pyStrip s)) q hq]

/-! Helper lemmas about rsplit_dot. -/

theorem rsplit_dot_append (v g : List Char) (hg : '.' ∉ g) :
    rsplit_dot (v ++ '.' :: g) = (v, g) := by
  have hrev : (v ++ '.' :: g).reverse = g.reverse ++ '.' :: v.reverse := by
    rw [List.reverse_append, List.reverse_cons, List.append_assoc,
      List.singleton_append]
  have hall : ∀ x ∈ g.reverse, (fun c => c != '.') x = true := by
    intro x hx
    have : x ∈ g := List.mem_reverse.mp hx
    have hne : x ≠ '.' := fun he => hg (he ▸ this)
    simpa using hne
  have hdotfalse : (fun c => c != '.') '.' = false := by simp
  simp only [rsplit_dot, hrev, Prod.mk.injEq]
  constructor
  · rw [dropWhile_append_of_all _ g.reverse ('.' :: v.reverse) hall,
      List.dropWhile_cons]
    simp
  · rw [takeWhile_append_of_all _ g.reverse ('.' :: v.reverse) hall,
      List.takeWhile_cons]
    simp

theorem rsplit_dot_split (s : List Char) (h : '.' ∈ s) :
    s = (rsplit_dot s).1 ++ '.' :: (rsplit_dot s).2 ∧ '.' ∉ (rsplit_dot s).2 := by
  have hmemrev : '.' ∈ s.reverse := List.mem_reverse.mpr h
  have hdne : s.reverse.dropWhile (fun c => c != '.') ≠ [] := by
    intro hnil
    have := dropWhile_eq_nil_all (fun c => c != '.') s.reverse hnil '.' hmemrev
    simp at this
  obtain ⟨c, d', hd⟩ := List.exists_cons_of_ne_nil hdne
  have hc : (fun c => c != '.') c = false :=
    dropWhile_eq_cons_head_false _ s.reverse c d' hd
  have hcdot : c = '.' := by simpa using hc
  subst hcdot
  have hsplit : s.reverse.takeWhile (fun c => c != '.') ++
      s.reverse.dropWhile (fun c => c != '.') = s.reverse :=
    List.takeWhile_append_dropWhile _ _
  have hs : s = ((s.reverse.takeWhile (fun c => c != '.')) ++
      ('.' :: d')).reverse := by
    rw [← hd, hsplit, List.reverse_reverse]
  constructor
  · conv_lhs => rw [hs]
    simp only [rsplit_dot, hd, List.drop_succ_cons, List.drop_zero]
    rw [List.reverse_append, List.reverse_cons, List.append_assoc,
      List.singleton_append]
  · intro hmem
    simp only [rsplit_dot] at hmem
    have : '.' ∈ s.reverse.takeWhile (fun c => c != '.') :=
      List.mem_reverse.mp hmem
    have := List.mem_takeWhile_imp this
    simp at this

/-! Helper lemmas about the Room Registry. -/

theorem Registry.set_rooms_same (reg : Registry) (room : RoomKey)
    (v : Option (List Conn)) : (reg.set room v).rooms room = v := by
  simp [Registry.set]

theorem Registry.register_preserves_no_empty (reg : Registry) (room : RoomKey)
    (conn : Conn) (h : ∀ r, reg.rooms r ≠ some [])
    (r : RoomKey) : (reg.register room conn).rooms r ≠ some [] := by
  cases hm : reg.rooms room with
  | none =>
    simp only [Registry.register, hm, Registry.set]
    by_cases hr : r = room
    · simp [hr]
    · simp [hr]
      exact h r
  | some cs =>
    have hcs : cs ≠ [] := by
      intro hnil
      exact h room (by rw [hm, hnil])
    simp only [Registry.register, hm, Registry.set]
    by_cases hr : r = room
    · simp only [hr, if_true]
      by_cases hc : conn ∈ cs
      · simp [hc]
        exact hcs
      · simp [hc]
    · simp [hr]
      exact h r

theorem Registry.unregister_preserves_no_empty (reg : Registry) (room : RoomKey)
    (conn : Conn) (h : ∀ r, reg.rooms r ≠ some [])
    (r : RoomKey) : (reg.unregister room conn).rooms r ≠ some [] := by
  cases hm : reg.rooms room with
  | none =>
    simp only [Registry.unregister, hm]
    exact h r
  | some cs =>
    simp only [Registry.unregister, hm]
    by_cases hc : conn ∈ cs
    · simp only [hc, if_true]
      by_cases he : cs.filter (fun c => c != conn) = []
      · simp only [he, if_true, Registry.set]
        by_cases hr : r = room
        · simp [hr]
        · simp [hr]
          exact h r
      · simp only [he, if_false, Registry.set]
        by_cases hr : r = room
        · simp only [hr, if_true]
          intro hcontra
          exact he (by injection hcontra)
        · simp [hr]
          exact h r
    · simp only [hc, if_false]
      exact h r

/-! Helper lemmas about validate_frame and receiveFrame. -/

theorem validate_frame_eq_none (name text : List Char)
    (h : pyStrip name = [] ∨ pyStrip text = []) :
    validate_frame name text = none := by
  rcases h with h | h
  · simp [validate_frame, h]
  · simp [validate_frame, h]

theorem validate_frame_eq_some (name text : List Char)
    (hn : pyStrip name ≠ []) (ht : pyStrip text ≠ []) :
    validate_frame name text =
      some ((pyStrip name).take 32, (pyStrip text).take 800) := by
  have h1 : (pyStrip name).take 32 ≠ [] := by
    intro hcontra
    rw [List.take_eq_nil_iff] at hcontra
    rcases hcontra with h | h
    · exact absurd h (by decide)
    · exact hn h
  have h2 : (pyStrip text).take 800 ≠ [] := by
    intro hcontra
    rw [List.take_eq_nil_iff] at hcontra
    rcases hcontra with h | h
    · exact absurd h (by decide)
    · exact ht h
  simp [validate_frame, h1, h2]

theorem validate_frame_some_inv (name text n t : List Char)
    (h : validate_frame name text = some (n, t)) :
    n = (pyStrip name).take 32 ∧ t = (pyStrip text).take 800 ∧
      n ≠ [] ∧ t ≠ [] := by
  simp only [validate_frame] at h
  split at h
  · exact absurd h (by simp)
  · rename_i hcond
    push_neg at hcond
    injection h with h'
    rw [Prod.mk.injEq] at h'
    exact ⟨h'.1.symm, h'.2.symm, h'.1 ▸ hcond.1, h'.2 ▸ hcond.2⟩

theorem receiveFrame_drop (reg : Registry) (st : MessageStore) (room : RoomKey)
    (name text : List Char) (h : validate_frame name text = none) :
    receiveFrame reg st room name text = ⟨st, []⟩ := by
  simp [receiveFrame, h]

theorem receiveFrame_accept (reg : Registry) (st : MessageStore) (room : RoomKey)
    (name text n t : List Char) (h : validate_frame name text = some (n, t)) :
    receiveFrame reg st room name text =
      ⟨(st.append room n t).1,
        (reg.snapshot room).map (fun c => (c, (st.append room n t).2))⟩ := by
  simp [receiveFrame, h]

theorem append_fst_messages (st : MessageStore) (room n t : List Char) :
    (st.append room n t).1.messages = st.messages ++ [(st.append room n t).2] :=
  rfl

theorem append_snd_fields (st : MessageStore) (room n t : List Char) :
    (st.append room n t).2.name = n ∧ (st.append room n t).2.text = t ∧
      (st.append room n t).2.room = room :=
  ⟨rfl, rfl, rfl⟩

/-! Claim theorems. -/

/-- C4: when a connection (equivalently, a ChatMessage) does not specify a
room identifier, the room key defaults to the string "main": resolve_room of
an unspecified parameter is "main", and a ChatMessage built without a room
field carries the default "main" of src/models.py line 26. -/
theorem C4_default_room_main :
    resolve_room none = "main".toList ∧
      ∀ (nm tx : List Char) (ts : Timestamp),
        ({ name := nm, text := tx, created_at := ts : ChatMessage }).room =
          "main".toList :=
  ⟨rfl, fun _ _ _ => rfl⟩

/-- C5: every ChatMessage is created with a store-assigned creation timestamp
in UTC: append stamps the record with the store clock under timezone.utc, and
the timestamp does not depend on the client-supplied room, name or text. -/
theorem C5_created_at_store_assigned_utc :
    ∀ (st : MessageStore) (room name text : List Char),
      (st.append room name text).2.created_at.tz = TZ.utc ∧
      (st.append room name text).2.created_at.time = st.clock ∧
      ∀ (room' name' text' : List Char),
        (st.append room' name' text').2.created_at =
          (st.append room name text).2.created_at :=
  fun _ _ _ _ => ⟨rfl, rfl, fun _ _ _ => rfl⟩

/-- C8: for every existing exercise and submitted answer, check_exercise
returns ok exactly when the answer and the stored correct_answer agree under
norm (lowercasing, collapsing whitespace runs to single spaces and removing
surrounding whitespace), and the response carries the stored correct_answer
verbatim. -/
theorem C8_check_exercise_normalization :
    ∀ (ex : Exercise) (answer : List Char),
      ((check_exercise ex answer).ok = true ↔
        norm answer = norm ex.correct_answer) ∧
      (check_exercise ex answer).correct = ex.correct_answer := by
  intro ex answer
  constructor
  · show (norm (pyStrip answer) == norm (pyStrip ex.correct_answer)) = true ↔ _
    rw [beq_iff_eq, norm_pyStrip, norm_pyStrip]
  · rfl

/-- C9: for every filename containing "..", "/" or "\" as a substring,
file_exists_approved returns false and book_viewer responds 404 (notFound),
whatever the state of the approved-PDF directory, so the viewer never serves a
path that escapes the approved directory. -/
theorem C9_no_path_traversal (fsExists : List Char → Bool) (filename : List Char)
    (h : ['.', '.'] <:+: filename ∨ ['/'] <:+: filename ∨ ['\\'] <:+: filename) :
    file_exists_approved fsExists filename = false ∧
      book_viewer fsExists filename = BookViewerResponse.notFound := by
  have hum : safe_name filename = false := by
    rcases h with h | h | h
    · have : strContains filename ['.', '.'] = true := by
        simp [strContains, h]
      simp [safe_name, this]
    · have : strContains filename ['/'] = true := by
        simp [strContains, h]
      simp [safe_name, this]
    · have : strContains filename ['\\'] = true := by
        simp [strContains, h]
      simp [safe_name, this]
  constructor
  · simp [file_exists_approved, hum]
  · simp [book_viewer, file_exists_approved, hum]

/-- C9 witness: the concrete filename "../secret.pdf" is refused even when
the file exists on disk. -/
theorem C9_no_path_traversal_witness :
    file_exists_approved (fun _ => true) ("../secret.pdf".toList) = false ∧
      book_viewer (fun _ => true) ("../secret.pdf".toList) =
        BookViewerResponse.notFound :=
  C9_no_path_traversal (fun _ => true) ("../secret.pdf".toList)
    (Or.inl ⟨[], "/secret.pdf".toList, rfl⟩)

/-- C10: with the HMAC-SHA256 hex digest abstracted as a mac whose output for
"admin" contains no dot (hex digests never do), signing then verifying
round-trips, and a cookie verifies exactly when it is the signed "admin"
cookie: value dot signature with the signature the mac of the value and the
value equal to "admin". -/
theorem C10_sign_verify_roundtrip (mac : List Char → List Char)
    (hd : '.' ∉ mac ("admin".toList)) :
    _verify mac (_sign mac ("admin".toList)) = true ∧
      ∀ s, _verify mac s = true ↔ s = _sign mac ("admin".toList) := by
  have main : ∀ s, _verify mac s = true ↔ s = _sign mac ("admin".toList) := by
    intro s
    constructor
    · intro hv
      unfold _verify at hv
      split at hv
      · exact absurd hv (by simp)
      · rename_i hcond
        push_neg at hcond
        obtain ⟨hne, hdot⟩ := hcond
        have hdot' : '.' ∈ s := hdot
        simp only [Bool.and_eq_true, beq_iff_eq] at hv
        obtain ⟨h1, h2⟩ := hv
        obtain ⟨hsplit, _⟩ := rsplit_dot_split s hdot'
        rw [_sign, ← h2, ← h1]
        exact hsplit
    · intro hs
      subst hs
      have hdotmem : '.' ∈ _sign mac ("admin".toList) := by
        simp [_sign]
      have hnonnil : _sign mac ("admin".toList) ≠ [] := by
        simp [_sign]
      have hr : rsplit_dot (_sign mac ("admin".toList)) =
          ("admin".toList, mac ("admin".toList)) :=
        rsplit_dot_append ("admin".toList) (mac ("admin".toList)) hd
      unfold _verify
      rw [if_neg (by
        intro hcontra
        rcases hcontra with h1 | h1
        · exact hnonnil h1
        · exact h1 hdotmem)]
      show (((rsplit_dot (_sign mac ("admin".toList))).2 ==
          mac (rsplit_dot (_sign mac ("admin".toList))).1) &&
          ((rsplit_dot (_sign mac ("admin".toList))).1 == "admin".toList)) = true
      rw [hr]
      simp
  exact ⟨(main _).mpr rfl, main⟩

/-- C10 witness: a concrete dot-free mac at which signing then verifying
succeeds. -/
theorem C10_sign_verify_roundtrip_witness :
    _verify (fun _ => "ab".toList)
      (_sign (fun _ => "ab".toList) ("admin".toList)) = true :=
  (C10_sign_verify_roundtrip (fun _ => "ab".toList) (by decide)).1

/-- C6: for every registry state, room and connection, unregistering a
connection that is not a member of the room (or an unknown room) leaves the
registry unchanged and raises no error, and unregister is idempotent:
applying it twice equals applying it once. -/
theorem C6_unregister_idempotent :
    (∀ (reg : Registry) (room : RoomKey) (conn : Conn),
      reg.isMember room conn = false → reg.unregister room conn = reg) ∧
    ∀ (reg : Registry) (room : RoomKey) (conn : Conn),
      (reg.unregister room conn).unregister room conn = reg.unregister room conn := by
  have noop : ∀ (reg : Registry) (room : RoomKey) (conn : Conn),
      reg.isMember room conn = false → reg.unregister room conn = reg := by
    intro reg room conn h
    cases hm : reg.rooms room with
    | none => simp [Registry.unregister, hm]
    | some cs =>
      have hc : conn ∉ cs := by
        simp only [Registry.isMember, hm, decide_eq_false_iff_not] at h
        exact h
      simp [Registry.unregister, hm, hc]
  refine ⟨noop, ?_⟩
  intro reg room conn
  cases hm : reg.rooms room with
  | none =>
    have e1 : reg.unregister room conn = reg := by
      simp [Registry.unregister, hm]
    rw [e1, e1]
  | some cs =>
    by_cases hc : conn ∈ cs
    · by_cases he : cs.filter (fun c => c != conn) = []
      · have e1 : reg.unregister room conn = reg.set room none := by
          simp [Registry.unregister, hm, hc, he]
        rw [e1]
        apply noop
        simp [Registry.isMember, Registry.set]
      · have e1 : reg.unregister room conn =
            reg.set room (some (cs.filter (fun c => c != conn))) := by
          simp [Registry.unregister, hm, hc, he]
        rw [e1]
        apply noop
        simp [Registry.isMember, Registry.set_rooms_same, List.mem_filter]
    · have e1 : reg.unregister room conn = reg := by
        simp [Registry.unregister, hm, hc]
      rw [e1, e1]

/-- C6 witness: unregistering connection 0 from room "x" in the empty
registry is a no-op, and the operation is idempotent on a concrete state. -/
theorem C6_unregister_idempotent_witness :
    Registry.empty.unregister ("x".toList) 0 = Registry.empty :=
  C6_unregister_idempotent.1 Registry.empty ("x".toList) 0 (by decide)

/-- C7: in every registry state reachable by register and unregister
operations, no room key maps to an empty subscriber set, and unregistering
the only subscriber of a room removes that room key from the registry
entirely. -/
theorem C7_no_empty_rooms :
    (∀ reg, Reachable reg → ∀ room, reg.rooms room ≠ some []) ∧
    ∀ (reg : Registry) (room : RoomKey) (conn : Conn),
      reg.rooms room = some [conn] →
        (reg.unregister room conn).rooms room = none := by
  constructor
  · intro reg h
    induction h with
    | empty => intro room; simp [Registry.empty]
    | register reg' room' conn' _ ih =>
      exact Registry.register_preserves_no_empty reg' room' conn' ih
    | unregister reg' room' conn' _ ih =>
      exact Registry.unregister_preserves_no_empty reg' room' conn' ih
  · intro reg room conn h
    have hc : conn ∈ [conn] := by simp
    have he : ([conn] : List Conn).filter (fun c => c != conn) = [] := by simp
    simp [Registry.unregister, h, hc, he, Registry.set]

/-- C7 witness: after registering connection 7 in room "x" and unregistering
it again, a concrete reachable state, room "x" does not map to the empty set
(indeed the key is absent). -/
theorem C7_no_empty_rooms_witness :
    ((Registry.empty.register ("x".toList) 7).unregister ("x".toList) 7).rooms
      ("x".toList) ≠ some [] :=
  C7_no_empty_rooms.1 _
    (Reachable.unregister _ ("x".toList) 7
      (Reachable.register Registry.empty ("x".toList) 7 Reachable.empty))
    ("x".toList)

/-- C1: every inbound chat message has its author name bounded to at most 32
code points and its text body to at most 800 code points before the
ChatMessage is persisted or broadcast; in particular an input text of 900
code points (given as its own trim, with a valid author name) is stored and
broadcast as its 800-code-point truncation. -/
theorem C1_inbound_message_bounds :
    (∀ (reg : Registry) (st : MessageStore) (room : RoomKey)
        (name text : List Char) (cm : Conn × ChatMessage),
      cm ∈ (receiveFrame reg st room name text).sends →
        cm.2.name.length ≤ 32 ∧ cm.2.text.length ≤ 800) ∧
    (∀ (reg : Registry) (st : MessageStore) (room : RoomKey)
        (name text : List Char) (m : ChatMessage),
      m ∈ (receiveFrame reg st room name text).store.messages →
        m ∉ st.messages → m.name.length ≤ 32 ∧ m.text.length ≤ 800) ∧
    ∀ (reg : Registry) (st : MessageStore) (room : RoomKey)
        (name text : List Char),
      text.length = 900 → pyStrip text = text → pyStrip name ≠ [] →
        (receiveFrame reg st room name text).store.messages.map (fun m => m.text) =
            st.messages.map (fun m => m.text) ++ [text.take 800] ∧
          (receiveFrame reg st room name text).sends.map (fun p => p.2.text) =
            (reg.snapshot room).map (fun _ => text.take 800) := by
  refine ⟨?_, ?_, ?_⟩
  · intro reg st room name text cm hmem
    cases hv : validate_frame name text with
    | none =>
      rw [receiveFrame_drop reg st room name text hv] at hmem
      exact absurd hmem (List.not_mem_nil cm)
    | some nt =>
      obtain ⟨n, t⟩ := nt
      obtain ⟨hn, ht, _, _⟩ := validate_frame_some_inv name text n t hv
      rw [receiveFrame_accept reg st room name text n t hv] at hmem
      obtain ⟨c, _, hcm⟩ := List.mem_map.mp hmem
      rw [← hcm]
      refine ⟨?_, ?_⟩
      · show n.length ≤ 32
        rw [hn]
        exact List.length_take_le 32 (pyStrip name)
      · show t.length ≤ 800
        rw [ht]
        exact List.length_take_le 800 (pyStrip text)
  · intro reg st room name text m hmem hnot
    cases hv : validate_frame name text with
    | none =>
      rw [receiveFrame_drop reg st room name text hv] at hmem
      exact absurd hmem hnot
    | some nt =>
      obtain ⟨n, t⟩ := nt
      obtain ⟨hn, ht, _, _⟩ := validate_frame_some_inv name text n t hv
      rw [receiveFrame_accept reg st room name text n t hv] at hmem
      simp only [append_fst_messages, List.mem_append] at hmem
      rcases hmem with h1 | h1
      · exact absurd h1 hnot
      · have hm : m = (st.append room n t).2 := by simpa using h1
        rw [hm]
        refine ⟨?_, ?_⟩
        · show n.length ≤ 32
          rw [hn]
          exact List.length_take_le 32 (pyStrip name)
        · show t.length ≤ 800
          rw [ht]
          exact List.length_take_le 800 (pyStrip text)
  · intro reg st room name text hlen hstrip hname
    have htext : pyStrip text ≠ [] := by
      rw [hstrip]
      intro hcontra
      rw [hcontra] at hlen
      exact absurd hlen (by decide)
    have hv := validate_frame_eq_some name text hname htext
    rw [hstrip] at hv
    rw [receiveFrame_accept reg st room name text _ _ hv]
    constructor
    · rw [append_fst_messages, List.map_append]
      simp only [List.map_cons, List.map_nil]
      rw [(append_snd_fields st room ((pyStrip name).take 32)
        (text.take 800)).2.1]
    · simp only [List.map_map, Function.comp_def]
      rw [(append_snd_fields st room ((pyStrip name).take 32)
        (text.take 800)).2.1]

set_option maxRecDepth 20000 in
/-- C1 witness: a concrete frame whose text is 900 copies of the letter x is
persisted and broadcast with the text truncated to its first 800 code
points. -/
theorem C1_inbound_message_bounds_witness :
    (receiveFrame Registry.empty MessageStore.empty ("main".toList)
        ("Ali".toList) (List.replicate 900 'x')).store.messages.map
          (fun m => m.text) =
        MessageStore.empty.messages.map (fun m => m.text) ++
          [(List.replicate 900 'x').take 800] ∧
      (receiveFrame Registry.empty MessageStore.empty ("main".toList)
        ("Ali".toList) (List.replicate 900 'x')).sends.map (fun p => p.2.text) =
        (Registry.empty.snapshot ("main".toList)).map
          (fun _ => (List.replicate 900 'x').take 800) :=
  C1_inbound_message_bounds.2.2 Registry.empty MessageStore.empty
    ("main".toList) ("Ali".toList) (List.replicate 900 'x')
    (by simp [List.length_replicate]) (by decide) (by decide)

/-- C2: an inbound message whose name or text is empty after trimming leaves
the store untouched and broadcasts nothing, and consequently every persisted
ChatMessage has non-empty name and non-empty text after trimming. -/
theorem C2_empty_after_trim_dropped :
    (∀ (reg : Registry) (st : MessageStore) (room : RoomKey)
        (name text : List Char),
      pyStrip name = [] ∨ pyStrip text = [] →
        receiveFrame reg st room name text = ⟨st, []⟩) ∧
    ∀ (reg : Registry) (st : MessageStore) (room : RoomKey)
        (name text : List Char) (m : ChatMessage),
      m ∈ (receiveFrame reg st room name text).store.messages →
        m ∈ st.messages ∨ (pyStrip m.name ≠ [] ∧ pyStrip m.text ≠ []) := by
  constructor
  · intro reg st room name text h
    exact receiveFrame_drop reg st room name text (validate_frame_eq_none name text h)
  · intro reg st room name text m hmem
    cases hv : validate_frame name text with
    | none =>
      rw [receiveFrame_drop reg st room name text hv] at hmem
      exact Or.inl hmem
    | some nt =>
      obtain ⟨n, t⟩ := nt
      obtain ⟨hn, ht, hnne, htne⟩ := validate_frame_some_inv name text n t hv
      rw [receiveFrame_accept reg st room name text n t hv] at hmem
      simp only [append_fst_messages, List.mem_append] at hmem
      rcases hmem with h1 | h1
      · exact Or.inl h1
      · have hm : m = (st.append room n t).2 := by simpa using h1
        refine Or.inr ⟨?_, ?_⟩
        · rw [hm]
          show pyStrip n ≠ []
          rw [hn] at hnne ⊢
          exact pyStrip_take_ne_nil name 32 hnne
        · rw [hm]
          show pyStrip t ≠ []
          rw [ht] at htne ⊢
          exact pyStrip_take_ne_nil text 800 htne

/-- C2 witness: a concrete frame whose name is all whitespace is dropped:
the store is unchanged and nothing is sent. -/
theorem C2_empty_after_trim_dropped_witness :
    receiveFrame Registry.empty MessageStore.empty ("main".toList)
      ("   ".toList) ("hi".toList) = ⟨MessageStore.empty, []⟩ :=
  C2_empty_after_trim_dropped.1 Registry.empty MessageStore.empty
    ("main".toList) ("   ".toList) ("hi".toList) (Or.inl (by decide))

/-- C3 counterexample: for the valid inputs name = 33 copies of the letter a
(non-empty after trimming) and text = "hi", the single record returned by
recent(room, 1) after the inbound append carries the 32-code-point truncation
of the name, not the 33-code-point trimmed input, so the claim as stated
fails. -/
theorem C3_trimmed_roundtrip_cex :
    ((receiveFrame Registry.empty MessageStore.empty ("main".toList)
        (List.replicate 33 'a') ("hi".toList)).store.recent ("main".toList) 1).map
          (fun m => m.name) =
        [List.replicate 32 'a'] ∧
      List.replicate 32 'a' ≠ pyStrip (List.replicate 33 'a') := by
  constructor
  · decide
  · decide

/-- C3 (amended): for name and text non-empty after trimming, the inbound
append followed by recent(room, 1) returns exactly one record whose name and
text equal the trimmed inputs truncated to 32 and 800 code points
respectively (hence the trimmed inputs themselves whenever they fit those
bounds); and recent(room, limit) always returns at most limit messages, all
of that room, in ascending chronological order. -/
theorem C3_trimmed_roundtrip_amended :
    (∀ (reg : Registry) (st : MessageStore) (room : RoomKey)
        (name text : List Char),
      pyStrip name ≠ [] → pyStrip text ≠ [] →
        ((receiveFrame reg st room name text).store.recent room 1).map
            (fun m => (m.name, m.text)) =
          [((pyStrip name).take 32, (pyStrip text).take 800)]) ∧
    (∀ (st : MessageStore) (room : List Char) (limit : Nat),
      (st.recent room limit).length ≤ limit ∧
        ∀ m ∈ st.recent room limit, m.room = room) ∧
    ∀ (st : MessageStore) (room : List Char) (limit : Nat),
      Chronological st →
        (st.recent room limit).Pairwise
          (fun a b => a.created_at.time ≤ b.created_at.time) := by
  refine ⟨?_, ?_, ?_⟩
  · intro reg st room name text hname htext
    have hv := validate_frame_eq_some name text hname htext
    rw [receiveFrame_accept reg st room name text _ _ hv]
    have hroom : ((st.append room ((pyStrip name).take 32)
        ((pyStrip text).take 800)).2.room == room) = true := by
      rw [(append_snd_fields st room ((pyStrip name).take 32)
        ((pyStrip text).take 800)).2.2]
      simp
    simp only [MessageStore.recent, append_fst_messages, List.filter_append,
      List.filter_cons, hroom, if_true, List.filter_nil,
      List.reverse_append, List.reverse_cons, List.reverse_nil,
      List.nil_append, List.singleton_append, List.take_succ_cons,
      List.take_zero, List.map_cons, List.map_nil]
    rw [(append_snd_fields st room ((pyStrip name).take 32)
      ((pyStrip text).take 800)).1,
      (append_snd_fields st room ((pyStrip name).take 32)
      ((pyStrip text).take 800)).2.1]
  · intro st room limit
    constructor
    · show (((st.messages.filter (fun m => m.room == room)).reverse.take
        limit).reverse).length ≤ limit
      rw [List.length_reverse, List.length_take]
      exact min_le_left _ _
    · intro m hm
      show m.room = room
      have h1 : m ∈ (st.messages.filter (fun m => m.room == room)).reverse.take
          limit := List.mem_reverse.mp hm
      have h2 : m ∈ (st.messages.filter (fun m => m.room == room)).reverse :=
        (List.take_sublist _ _).subset h1
      have h3 : m ∈ st.messages.filter (fun m => m.room == room) :=
        List.mem_reverse.mp h2
      have := List.of_mem_filter h3
      exact beq_iff_eq.mp this
  · intro st room limit hchron
    have hsub : List.Sublist (st.recent room limit) st.messages := by
      have h1 : List.Sublist
          ((st.messages.filter (fun m => m.room == room)).reverse.take limit)
          (st.messages.filter (fun m => m.room == room)).reverse :=
        List.take_sublist _ _
      have h2 := h1.reverse
      rw [List.reverse_reverse] at h2
      exact h2.trans (List.filter_sublist _)
    exact hchron.sublist hsub

/-- C3 witness for the amended claim: the scenario of spec section 8, name
"Ali" and text "Salom" in room "main", round-trips exactly (both fit the
bounds, so the truncations are the trimmed inputs themselves). -/
theorem C3_trimmed_roundtrip_amended_witness :
    ((receiveFrame Registry.empty MessageStore.empty ("main".toList)
        ("Ali".toList) ("Salom".toList)).store.recent ("main".toList) 1).map
          (fun m => (m.name, m.text)) =
        [((pyStrip ("Ali".toList)).take 32, (pyStrip ("Salom".toList)).take 800)] :=
  C3_trimmed_roundtrip_amended.1 Registry.empty MessageStore.empty
    ("main".toList) ("Ali".toList) ("Salom".toList) (by decide) (by decide)

end ItBook
